import Mathlib

/-!
Shallow embedding of the Pi-hole Blocklist Optimizer core (Rust sources
`src/domain.rs`, `src/whitelist.rs`, `src/client.rs`, `src/pipeline.rs`)
together with proofs settling the frozen specification claims.

Strings are modelled as `List Char` (ASCII text; Rust byte length and
char count coincide on the inputs of interest).  Rust `HashSet<String>`
is modelled as a duplicate-free `List` of strings; only set-level facts
(membership, cardinality of concrete values) are asserted about it.
-/

/-- A Rust `&str` / `String`, modelled as its character list. -/
abbrev Str := List Char

/-- Character list of a Lean string literal (used for concrete inputs). -/
def str (s : String) : Str := s.data

/-! Character-level helpers.

Rust `str::to_lowercase` restricted to ASCII coincides with Lean's core
`Char.toLower` (uppercase `A`–`Z` is shifted by 32, everything else is
unchanged), so `Char.toLower` is used as the character case map. -/

theorem charToNat_ofNat (n : Nat) (h : n.isValidChar) : (Char.ofNat n).toNat = n := by
  simp only [Char.ofNat, dif_pos h, Char.ofNatAux, Char.toNat, UInt32.toNat, BitVec.toNat_ofNatLt]

theorem charToNat_inj {a b : Char} (h : a.toNat = b.toNat) : a = b :=
  Char.ext_iff.mpr (UInt32.ext h)

theorem toLower_toNat_of_upper (c : Char) (h1 : 65 ≤ c.toNat) (h2 : c.toNat ≤ 90) :
    (Char.toLower c).toNat = c.toNat + 32 := by
  have hv : (c.toNat + 32).isValidChar := Or.inl (by omega)
  unfold Char.toLower
  rw [if_pos ⟨h1, h2⟩]
  exact charToNat_ofNat _ hv

theorem toLower_eq_self (c : Char) (h : ¬(65 ≤ c.toNat ∧ c.toNat ≤ 90)) :
    Char.toLower c = c := by
  unfold Char.toLower
  rw [if_neg h]

theorem toLower_idem (c : Char) : Char.toLower (Char.toLower c) = Char.toLower c := by
  by_cases h : 65 ≤ c.toNat ∧ c.toNat ≤ 90
  · have h1 := toLower_toNat_of_upper c h.1 h.2
    apply toLower_eq_self
    omega
  · rw [toLower_eq_self c h, toLower_eq_self c h]

theorem toLower_not_upper (c : Char) :
    ¬(65 ≤ (Char.toLower c).toNat ∧ (Char.toLower c).toNat ≤ 90) := by
  by_cases h : 65 ≤ c.toNat ∧ c.toNat ≤ 90
  · have h1 := toLower_toNat_of_upper c h.1 h.2
    omega
  · rw [toLower_eq_self c h]; exact h

theorem toLower_dot_iff (c : Char) : Char.toLower c = '.' ↔ c = '.' := by
  constructor
  · intro h
    by_cases hc : 65 ≤ c.toNat ∧ c.toNat ≤ 90
    · exfalso
      have h1 := toLower_toNat_of_upper c hc.1 hc.2
      have hd : ('.' : Char).toNat = 46 := by decide
      rw [h] at h1
      omega
    · rwa [toLower_eq_self c hc] at h
  · intro h; subst h; decide

/-! Embedding of src/domain.rs. -/

/-- Constant MAX_DOMAIN_LENGTH from src/domain.rs. -/
def MAX_DOMAIN_LENGTH : Nat := 253

/-- Rust `domain.to_lowercase()` (character-wise ASCII case map). -/
def toLowerStr (s : Str) : Str := s.map Char.toLower

/-- Rust `trim_end_matches('.')`: removes every trailing `'.'`. -/
def dropTrailingDots (s : Str) : Str := (s.reverse.dropWhile (fun c => c == '.')).reverse

/-- Function normalize_domain from src/domain.rs:
`domain.to_lowercase().trim_end_matches('.')`. -/
def normalize_domain (s : Str) : Str := dropTrailingDots (toLowerStr s)

/-- A `[a-zA-Z0-9-]` character of `DOMAIN_RE`. -/
def labelChar (c : Char) : Bool := c.isAlphanum || c == '-'

/-- First character of a label is `[a-zA-Z0-9]`. -/
def headAlnum (s : Str) : Bool :=
  match s.head? with
  | some c => c.isAlphanum
  | none => false

/-- Last character of a label is `[a-zA-Z0-9]`. -/
def lastAlnum (s : Str) : Bool :=
  match s.getLast? with
  | some c => c.isAlphanum
  | none => false

/-- One label of `DOMAIN_RE`.  A non-final label
`[a-zA-Z0-9](?:[a-zA-Z0-9-]{0,61}[a-zA-Z0-9])?` is a string of length
`1..=63` over `[a-zA-Z0-9-]` whose first and last characters are
alphanumeric (`lo = 1`); the final label
`[a-zA-Z0-9][a-zA-Z0-9-]{0,61}[a-zA-Z0-9]` additionally has length at
least 2 (`lo = 2`). -/
def boundedLabel (lo : Nat) (s : Str) : Bool :=
  decide (lo ≤ s.length) && decide (s.length ≤ 63) && headAlnum s && lastAlnum s &&
    s.all labelChar

/-- Split a string at every `'.'` (labels of `DOMAIN_RE` contain no dot,
so the regex decomposition of a matching string is exactly this split). -/
def splitDot : Str → List Str
  | [] => [[]]
  | c :: rest =>
    if c = '.' then [] :: splitDot rest
    else
      match splitDot rest with
      | [] => [[c]]
      | h :: t => (c :: h) :: t

/-- The label-list form of `DOMAIN_RE`: at least two labels, all but the
last of shape `boundedLabel 1`, the last of shape `boundedLabel 2`. -/
def labelsMatch (labels : List Str) : Bool :=
  decide (2 ≤ labels.length) && labels.dropLast.all (boundedLabel 1) &&
    (match labels.getLast? with
     | some l => boundedLabel 2 l
     | none => false)

/-- Whole-string match of `DOMAIN_RE` =
`^(?:[a-zA-Z0-9](?:[a-zA-Z0-9-]{0,61}[a-zA-Z0-9])?\.)+[a-zA-Z0-9][a-zA-Z0-9-]{0,61}[a-zA-Z0-9]$`. -/
def domainReMatch (s : Str) : Bool := labelsMatch (splitDot s)

/-- Rust `domain.strip_prefix("*.")` folded into the `if let` of
`validate_domain`: returns the rest when the string begins with `*.`,
the string itself otherwise. -/
def stripWildcard (s : Str) : Str :=
  match s with
  | a :: b :: rest => if a = '*' ∧ b = '.' then rest else a :: b :: rest
  | t => t

/-- Function validate_domain from src/domain.rs. -/
def validate_domain (s : Str) : Bool :=
  if s = [] ∨ s = str "localhost" ∨ (str ".local").isSuffixOf s = true then false
  else if MAX_DOMAIN_LENGTH < s.length then false
  else domainReMatch (stripWildcard s)

/-- Whitespace predicate used for Rust `str::trim` (ASCII model). -/
def isWs (c : Char) : Bool := c.isWhitespace

/-- Rust `str::trim`: strip whitespace from both ends. -/
def trimStr (s : Str) : Str := ((s.dropWhile isWs).reverse.dropWhile isWs).reverse

/-- Effect of replacing the first match of COMMENT_RE `[#!].*$` by the
empty string on a newline-free line: the line is cut at the first
occurrence of a hash or bang character. -/
def commentCut (s : Str) : Str := s.takeWhile (fun c => !(c == '#' || c == '!'))

/-- One octet of IP_DOMAIN_RE, the greedy fragment `\d{1,3}` directly
followed by a non-digit: the maximal digit run at the front must have
length one to three, and is consumed whole. -/
def eatOctet (s : Str) : Option Str :=
  if 1 ≤ (s.takeWhile Char.isDigit).length ∧ (s.takeWhile Char.isDigit).length ≤ 3 then
    some (s.dropWhile Char.isDigit)
  else none

/-- A literal dot of IP_DOMAIN_RE. -/
def eatDot : Str → Option Str
  | c :: r => if c = '.' then some r else none
  | [] => none

/-- Capture group of IP_DOMAIN_RE
`^\s*\d{1,3}\.\d{1,3}\.\d{1,3}\.\d{1,3}\s+(\S+)$` on a newline-free
line, modelled as a parser.  After the fourth octet the line must be a
nonempty whitespace run followed by a nonempty whitespace-free token
reaching the end; that token is the capture. -/
def ipDomainCapture (s : Str) : Option Str := do
  let s0 := s.dropWhile isWs
  let s1 ← eatOctet s0
  let s2 ← eatDot s1
  let s3 ← eatOctet s2
  let s4 ← eatDot s3
  let s5 ← eatOctet s4
  let s6 ← eatDot s5
  let s7 ← eatOctet s6
  if s7.takeWhile isWs ≠ [] ∧ s7.dropWhile isWs ≠ [] ∧
      (s7.dropWhile isWs).all (fun c => !(isWs c)) then
    some (s7.dropWhile isWs)
  else none

/-- Tail condition of ADBLOCK_RE after the closing caret: the fragment
`(?:\$.*)?$` on a newline-free remainder demands the remainder be empty
or begin with a dollar sign. -/
def adblockTailOk (s : Str) : Bool := s.isEmpty || s.head? == some '$'

/-- Lazy scan of ADBLOCK_RE `^\|\|(.+?)\^(?:\$.*)?$` after the two
pipes: the candidate closing carets are tried left to right; the first
caret with a nonempty capture before it and a valid tail closes the
match, otherwise the caret joins the capture (the accumulator holds the
capture reversed). -/
def adblockScan : Str → Str → Option Str
  | _, [] => none
  | acc, c :: rest =>
    if c = '^' ∧ acc ≠ [] ∧ adblockTailOk rest = true then some acc.reverse
    else adblockScan (c :: acc) rest

/-- Capture group of ADBLOCK_RE on a newline-free line. -/
def adblockCapture : Str → Option Str
  | a :: b :: rest => if a = '|' ∧ b = '|' then adblockScan [] rest else none
  | _ => none

/-- Function extract_domain_from_line from src/domain.rs. -/
def extract_domain_from_line (line : Str) : Option Str :=
  let t := trimStr line
  if t = [] ∨ t.head? = some '#' ∨ t.head? = some '!' then none
  else
    let l := trimStr (commentCut t)
    if l = [] then none
    else
      match ipDomainCapture l with
      | some d => some d
      | none =>
        match adblockCapture l with
        | some d => some d
        | none =>
          if !(l.contains ' ') && !(l.contains '/') && !(l.contains '?') then some l
          else none

/-! Embedding of src/whitelist.rs.  The compiled combined wildcard/regex
pattern is opaque to the matching logic (only its boolean `is_match` is
consulted), so it is modelled as an optional boolean predicate. -/

/-- Struct WhitelistManager from src/whitelist.rs.  The Rust
`HashSet<String>` of exact domains is a duplicate-free list; the
compiled combined pattern is its matching predicate. -/
structure WhitelistManager where
  exact_domains : List Str
  combined_pattern : Option (Str → Bool)
  enable_subdomain : Bool

/-- Method WhitelistManager::check_subdomain: walk the dot positions of
the domain left to right and test the suffix after each dot for
exact-set membership. -/
def check_subdomain (exact : List Str) : Str → Bool
  | [] => false
  | c :: rest =>
    if c = '.' then decide (rest ∈ exact) || check_subdomain exact rest
    else check_subdomain exact rest

/-- The per-domain match of WhitelistManager::filter_domains: exact-set
membership first, then (only with subdomain matching enabled) the
suffix walk, then the combined pattern. -/
def is_whitelisted (m : WhitelistManager) (d : Str) : Bool :=
  if d ∈ m.exact_domains then true
  else if m.enable_subdomain && check_subdomain m.exact_domains d then true
  else
    match m.combined_pattern with
    | some re => re d
    | none => false

/-- The filtering loop of WhitelistManager::filter_domains: partition
the input by the match, keeping non-matching domains and counting the
matching ones. -/
def filterLoop (m : WhitelistManager) : List Str → List Str × Nat
  | [] => ([], 0)
  | d :: rest =>
    let fr := filterLoop m rest
    if is_whitelisted m d then (fr.1, fr.2 + 1) else (d :: fr.1, fr.2)

/-- Method WhitelistManager::filter_domains, including the early return
when no rules were loaded. -/
def filter_domains (m : WhitelistManager) (domains : List Str) : List Str × Nat :=
  if m.exact_domains = [] ∧ m.combined_pattern.isNone = true then (domains, 0)
  else filterLoop m domains

/-! Embedding of src/client.rs.  The network is an oracle assigning a
response to every attempt index; HttpClient::download consumes it in a
retry loop.  Backoff delays are real time and are not modelled. -/

/-- Constant MAX_RETRIES from src/client.rs. -/
def MAX_RETRIES : Nat := 3

/-- Constant RETRY_STATUS_CODES from src/client.rs. -/
def RETRY_STATUS_CODES : List Nat := [429, 500, 502, 503, 504]

/-- One server answer to one attempt: a network-level failure, or an
HTTP status with the optional ETag and Last-Modified response headers
and the body bytes. -/
inductive Response where
  | netErr : Response
  | status : Nat → Option Str → Option Str → Str → Response
deriving DecidableEq

/-- Result of HttpClient::download: the Ok DownloadResult struct split
by its was_modified flag (NotModified carries the validator fields,
Success the content and the new validator), or the Err case. -/
inductive Outcome where
  | notModified : Option Str → Option Str → Outcome
  | success : Str → Option Str → Option Str → Outcome
  | failed : Outcome
deriving DecidableEq

/-- Statuses reqwest treats as successful (StatusCode::is_success). -/
def isSuccessStatus (code : Nat) : Bool := decide (200 ≤ code) && decide (code < 300)

/-- A response the download loop retries: any network-level error, or a
status in RETRY_STATUS_CODES. -/
def isTransient : Response → Bool
  | Response.netErr => true
  | Response.status code _ _ _ => RETRY_STATUS_CODES.contains code

/-- The loop of HttpClient::download.  The attempt counter starts at 0
and is incremented on every retry, so the iteration with counter value
n sees the server's answer to attempt n.  The fuel argument only
bounds the recursion; MAX_RETRIES + 1 units never run out because the
counter grows on every recursive call and retries stop at MAX_RETRIES. -/
def downloadGo (etag lastMod : Option Str) (respond : Nat → Response) :
    Nat → Nat → Outcome
  | _, 0 => Outcome.failed
  | attempts, fuel + 1 =>
    match respond attempts with
    | Response.netErr =>
      if attempts < MAX_RETRIES then downloadGo etag lastMod respond (attempts + 1) fuel
      else Outcome.failed
    | Response.status code re rlm body =>
      if code = 304 then Outcome.notModified etag lastMod
      else if RETRY_STATUS_CODES.contains code = true ∧ attempts < MAX_RETRIES then
        downloadGo etag lastMod respond (attempts + 1) fuel
      else if isSuccessStatus code = false then Outcome.failed
      else Outcome.success body re rlm

/-- Method HttpClient::download on a given network oracle. -/
def download (etag lastMod : Option Str) (respond : Nat → Response) : Outcome :=
  downloadGo etag lastMod respond 0 (MAX_RETRIES + 1)

/-! Embedding of src/pipeline.rs (the aggregation and production-list
logic; file system and progress-bar side effects are out of scope).
The map from category to domain set is an association list with
pairwise-distinct category names; an output file is its list of lines,
with the run timestamp passed in as an opaque string. -/

/-- Rust `HashSet::insert`: add the value if it is not yet present. -/
def insertSet (d : Str) (acc : List Str) : List Str :=
  if d ∈ acc then acc else acc ++ [d]

/-- One loop iteration of the function process_content from
src/pipeline.rs: extract a candidate, validate it raw, insert its
normalization. -/
def processLine (acc : List Str) (line : Str) : List Str :=
  match extract_domain_from_line line with
  | some d => if validate_domain d then insertSet (normalize_domain d) acc else acc
  | none => acc

/-- Function process_content from src/pipeline.rs, over the lines of the
fetched content. -/
def process_content (lines : List Str) : List Str :=
  lines.foldl processLine []

/-- Rust `HashSet::extend`. -/
def extendSet (acc : List Str) (ds : List Str) : List Str :=
  ds.foldl (fun a d => insertSet d a) acc

/-- The master merge of BlocklistManager::create_production_lists:
the union of every category's set except the category "nsfw". -/
def unionNonNsfw (cd : List (Str × List Str)) : List Str :=
  cd.foldl (fun acc p => if p.1 = str "nsfw" then acc else extendSet acc p.2) []

/-- Function capitalize from src/pipeline.rs (ASCII model of
`char::to_uppercase`). -/
def capitalize : Str → Str
  | [] => []
  | c :: r => Char.toUpper c :: r

/-- Decimal rendering of a count, for the file header. -/
def natToStr (n : Nat) : Str := (Nat.repr n).data

/-- Rust `sorted.sort()` inside write_blocklist_file: sort the domains
by the lexicographic order on strings. -/
def sortDomains (domains : List Str) : List Str := List.insertionSort (· ≤ ·) domains

/-- Function write_blocklist_file from src/pipeline.rs, as the list of
lines written: a three-line header plus a blank line, then one
`0.0.0.0 domain` record per domain in sorted order. -/
def write_blocklist_lines (label : Str) (now : Str) (domains : List Str) : List Str :=
  (str "# Pi-hole " ++ label ++ str " Blocklist") ::
  (str "# Last updated: " ++ now) ::
  (str "# Total domains: " ++ natToStr domains.length) ::
  [] ::
  (sortDomains domains).map (fun d => str "0.0.0.0 " ++ d)

/-- The files produced by BlocklistManager::create_production_lists,
with the removed count and final count it returns. -/
structure ProductionOutput where
  masterFile : List Str
  whitelistedCount : Nat
  finalCount : Nat
  categoryFiles : List (Str × List Str)
deriving DecidableEq

/-- Method BlocklistManager::create_production_lists from
src/pipeline.rs. -/
def create_production_lists (m : WhitelistManager) (now : Str)
    (category_domains : List (Str × List Str)) : ProductionOutput :=
  let fr := filter_domains m (unionNonNsfw category_domains)
  { masterFile := write_blocklist_lines (str "Master") now fr.1
    whitelistedCount := fr.2
    finalCount := fr.1.length
    categoryFiles := category_domains.filterMap (fun p =>
      if p.2 = [] then none
      else some (p.1, write_blocklist_lines (capitalize p.1) now (filter_domains m p.2).1)) }

/-! Helper lemmas. -/

theorem splitDot_ne_nil (s : Str) : splitDot s ≠ [] := by
  induction s with
  | nil => simp [splitDot]
  | cons c rest ih =>
    unfold splitDot
    by_cases hc : c = '.'
    · simp [hc]
    · rw [if_neg hc]
      cases h : splitDot rest with
      | nil => simp
      | cons h t => simp

theorem dropWhile_dropWhile (p : Char → Bool) (l : Str) :
    (l.dropWhile p).dropWhile p = l.dropWhile p := by
  induction l with
  | nil => rfl
  | cons a r ih =>
    rw [List.dropWhile_cons]
    by_cases hp : p a
    · rw [if_pos hp]; exact ih
    · rw [if_neg hp, List.dropWhile_cons, if_neg hp]

theorem head?_dropWhile_false (p : Char → Bool) (l : Str) (c : Char)
    (h : (l.dropWhile p).head? = some c) : p c = false := by
  induction l with
  | nil => simp [List.dropWhile] at h
  | cons a r ih =>
    rw [List.dropWhile_cons] at h
    by_cases hp : p a
    · rw [if_pos hp] at h; exact ih h
    · rw [if_neg hp] at h
      simp only [List.head?_cons, Option.some.injEq] at h
      subst h
      simpa using hp

theorem toLowerStr_idem (s : Str) : toLowerStr (toLowerStr s) = toLowerStr s := by
  unfold toLowerStr
  rw [List.map_map]
  exact List.map_congr_left fun a _ => toLower_idem a

theorem beq_dot_toLower (c : Char) : (Char.toLower c == '.') = (c == '.') := by
  by_cases h : c = '.'
  · subst h; decide
  · have h2 : Char.toLower c ≠ '.' := fun hh => h ((toLower_dot_iff c).mp hh)
    simp [h, h2]

theorem dropTrailingDots_toLowerStr (s : Str) :
    dropTrailingDots (toLowerStr s) = toLowerStr (dropTrailingDots s) := by
  unfold dropTrailingDots toLowerStr
  rw [← List.map_reverse, List.dropWhile_map]
  have hpred : ((fun c => c == '.') ∘ Char.toLower) = (fun c => c == '.') :=
    funext fun c => beq_dot_toLower c
  rw [hpred, ← List.map_reverse]

theorem dropTrailingDots_idem (s : Str) :
    dropTrailingDots (dropTrailingDots s) = dropTrailingDots s := by
  unfold dropTrailingDots
  rw [List.reverse_reverse, dropWhile_dropWhile]

theorem normalize_no_trailing_dot (s : Str) : (normalize_domain s).getLast? ≠ some '.' := by
  intro hlast
  unfold normalize_domain dropTrailingDots at hlast
  rw [List.getLast?_reverse] at hlast
  have h2 := head?_dropWhile_false _ _ _ hlast
  simp at h2

theorem normalize_domain_idem (s : Str) :
    normalize_domain (normalize_domain s) = normalize_domain s := by
  unfold normalize_domain
  rw [← dropTrailingDots_toLowerStr (toLowerStr s), toLowerStr_idem, dropTrailingDots_idem]

theorem toLowerStr_normalize (x : Str) :
    toLowerStr (normalize_domain x) = normalize_domain x := by
  unfold normalize_domain
  rw [← dropTrailingDots_toLowerStr (toLowerStr x), toLowerStr_idem]

/-- C9: normalize_domain is idempotent: for every string x,
normalize_domain (normalize_domain x) = normalize_domain x. -/
theorem C9_normalize_domain_idempotent (s : Str) :
    normalize_domain (normalize_domain s) = normalize_domain s :=
  normalize_domain_idem s

/-- C6 counterexample: the claim predicts that a string ending in two
dots keeps one dot after normalization, so normalize_domain "a.."
would be "a.".  In fact trim_end_matches removes every trailing dot:
normalize_domain "a.." is "a", which differs from "a.". -/
theorem C6_counterexample :
    normalize_domain (str "a..") = str "a" ∧ str "a" ≠ str "a." := by decide

/-- C6 amended: normalize_domain equals the lowercased input with ALL
trailing dots stripped: the lowercased input is the result followed by
some run of dots, and the result never ends in a dot. -/
theorem C6_normalize_strips_all_trailing_dots (s : Str) :
    ∃ n, toLowerStr s = normalize_domain s ++ List.replicate n '.' ∧
      (normalize_domain s).getLast? ≠ some '.' := by
  refine ⟨((toLowerStr s).reverse.takeWhile (fun c => c == '.')).length, ?_,
    normalize_no_trailing_dot s⟩
  have h := List.takeWhile_append_dropWhile (fun c => c == '.') (toLowerStr s).reverse
  have h2 : toLowerStr s =
      ((toLowerStr s).reverse.dropWhile (fun c => c == '.')).reverse ++
        ((toLowerStr s).reverse.takeWhile (fun c => c == '.')).reverse := by
    conv_lhs => rw [← List.reverse_reverse (toLowerStr s), ← h, List.reverse_append]
  conv_lhs => rw [h2]
  unfold normalize_domain dropTrailingDots
  congr 1
  have hmem : ∀ b ∈ (toLowerStr s).reverse.takeWhile (fun c => c == '.'), b = '.' := by
    intro b hb
    have hb2 := List.mem_takeWhile_imp hb
    simpa using hb2
  calc ((toLowerStr s).reverse.takeWhile (fun c => c == '.')).reverse
      = (List.replicate ((toLowerStr s).reverse.takeWhile (fun c => c == '.')).length '.').reverse := by
        rw [← List.eq_replicate_of_mem hmem]
    _ = List.replicate ((toLowerStr s).reverse.takeWhile (fun c => c == '.')).length '.' :=
        List.reverse_replicate _ _

theorem boundedLabel_false_of_head (lo : Nat) (c : Char) (t : Str) (hc : c.isAlphanum = false) :
    boundedLabel lo (c :: t) = false := by
  unfold boundedLabel headAlnum
  simp [hc]

theorem splitDot_cons_dot (r : Str) : splitDot ('.' :: r) = [] :: splitDot r := rfl

theorem splitDot_cons_ne (c : Char) (r : Str) (hc : ¬ c = '.') (h0 : Str) (t0 : List Str)
    (h : splitDot r = h0 :: t0) : splitDot (c :: r) = (c :: h0) :: t0 := by
  show (if c = '.' then [] :: splitDot r else
      match splitDot r with
      | [] => [[c]]
      | h :: t => (c :: h) :: t) = (c :: h0) :: t0
  rw [if_neg hc, h]

theorem domainReMatch_false_of_head (c : Char) (r : Str) (hc : c.isAlphanum = false) :
    domainReMatch (c :: r) = false := by
  unfold domainReMatch
  by_cases hdot : c = '.'
  · subst hdot
    rw [splitDot_cons_dot]
    cases h : splitDot r with
    | nil => exact absurd h (splitDot_ne_nil r)
    | cons h0 t0 =>
      unfold labelsMatch
      have hb : boundedLabel 1 ([] : Str) = false := by decide
      simp [List.dropLast, List.all_cons, hb]
  · cases h : splitDot r with
    | nil => exact absurd h (splitDot_ne_nil r)
    | cons h0 t0 =>
      rw [splitDot_cons_ne c r hdot h0 t0 h]
      cases t0 with
      | nil =>
        unfold labelsMatch
        simp
      | cons h1 t1 =>
        unfold labelsMatch
        have hb := boundedLabel_false_of_head 1 c h0 hc
        simp [List.dropLast, List.all_cons, hb]

/-- C7: validate_domain returns false for the empty string, for the
literal "localhost", for every string ending in ".local", for every
string longer than 253 characters, and for every string starting with
a hyphen. -/
theorem C7_validate_domain_rejections :
    validate_domain [] = false ∧
    validate_domain (str "localhost") = false ∧
    (∀ s : Str, (str ".local").isSuffixOf s = true → validate_domain s = false) ∧
    (∀ s : Str, MAX_DOMAIN_LENGTH < s.length → validate_domain s = false) ∧
    (∀ s : Str, s.head? = some '-' → validate_domain s = false) := by
  refine ⟨by decide, by decide, ?_, ?_, ?_⟩
  · intro s h
    unfold validate_domain
    rw [if_pos (Or.inr (Or.inr h))]
  · intro s h
    unfold validate_domain
    by_cases h1 : s = [] ∨ s = str "localhost" ∨ (str ".local").isSuffixOf s = true
    · rw [if_pos h1]
    · rw [if_neg h1, if_pos h]
  · intro s h
    cases s with
    | nil => simp at h
    | cons c r =>
      simp only [List.head?_cons, Option.some.injEq] at h
      subst h
      unfold validate_domain
      by_cases h1 : ('-' :: r : Str) = [] ∨ ('-' :: r : Str) = str "localhost" ∨
          (str ".local").isSuffixOf ('-' :: r) = true
      · rw [if_pos h1]
      · rw [if_neg h1]
        by_cases h2 : MAX_DOMAIN_LENGTH < ('-' :: r : Str).length
        · rw [if_pos h2]
        · rw [if_neg h2]
          have hsw : stripWildcard ('-' :: r) = '-' :: r := by
            cases r with
            | nil => rfl
            | cons b t =>
              show (if '-' = '*' ∧ b = '.' then t else '-' :: b :: t) = '-' :: b :: t
              rw [if_neg]
              rintro ⟨hh, -⟩
              exact absurd hh (by decide)
          rw [hsw]
          exact domainReMatch_false_of_head '-' r (by decide)

set_option maxRecDepth 8192 in
/-- C7 witness: the universally quantified rejection cases applied at
the concrete inputs "x.local", a 254-character string, and "-a.com". -/
theorem C7_witness :
    ((str ".local").isSuffixOf (str "x.local") = true ∧ validate_domain (str "x.local") = false) ∧
    (MAX_DOMAIN_LENGTH < (List.replicate 254 'a').length ∧
      validate_domain (List.replicate 254 'a') = false) ∧
    ((str "-a.com").head? = some '-' ∧ validate_domain (str "-a.com") = false) :=
  ⟨⟨by decide, C7_validate_domain_rejections.2.2.1 _ (by decide)⟩,
   ⟨by rw [List.length_replicate]; decide,
    C7_validate_domain_rejections.2.2.2.1 _ (by rw [List.length_replicate]; decide)⟩,
   ⟨by decide, C7_validate_domain_rejections.2.2.2.2 _ (by decide)⟩⟩

theorem splitDot_append_dot (s : Str) : splitDot (s ++ ['.']) = splitDot s ++ [[]] := by
  induction s with
  | nil => rfl
  | cons c r ih =>
    by_cases hc : c = '.'
    · subst hc
      rw [List.cons_append, splitDot_cons_dot, splitDot_cons_dot, ih, List.cons_append]
    · rw [List.cons_append]
      cases h : splitDot r with
      | nil => exact absurd h (splitDot_ne_nil r)
      | cons h0 t0 =>
        have h2 : splitDot (r ++ ['.']) = h0 :: (t0 ++ [[]]) := by
          rw [ih, h, List.cons_append]
        rw [splitDot_cons_ne c (r ++ ['.']) hc h0 (t0 ++ [[]]) h2,
            splitDot_cons_ne c r hc h0 t0 h, List.cons_append]

theorem domainReMatch_false_of_last_dot (s : Str) (h : s.getLast? = some '.') :
    domainReMatch s = false := by
  have hne : s ≠ [] := by
    intro he
    subst he
    simp at h
  have hl : s.getLast hne = '.' := by
    rw [List.getLast?_eq_getLast s hne] at h
    exact Option.some.inj h
  have hs : s.dropLast ++ ['.'] = s := by
    have h3 := List.dropLast_append_getLast hne
    rwa [hl] at h3
  rw [← hs]
  unfold domainReMatch labelsMatch
  rw [splitDot_append_dot, List.getLast?_concat]
  have hb : boundedLabel 2 ([] : Str) = false := by decide
  simp [hb]

theorem getLast?_stripWildcard (s : Str) (h : s.getLast? = some '.') :
    stripWildcard s = [] ∨ (stripWildcard s).getLast? = some '.' := by
  cases s with
  | nil => simp at h
  | cons a s1 =>
    cases s1 with
    | nil => right; exact h
    | cons b rest =>
      by_cases hab : a = '*' ∧ b = '.'
      · have hsw : stripWildcard (a :: b :: rest) = rest := by
          show (if a = '*' ∧ b = '.' then rest else a :: b :: rest) = rest
          rw [if_pos hab]
        rw [hsw]
        cases rest with
        | nil => left; rfl
        | cons c t =>
          right
          rw [List.getLast?_cons_cons, List.getLast?_cons_cons] at h
          exact h
      · have hsw : stripWildcard (a :: b :: rest) = a :: b :: rest := by
          show (if a = '*' ∧ b = '.' then rest else a :: b :: rest) = a :: b :: rest
          rw [if_neg hab]
        rw [hsw]
        right
        exact h

theorem validate_domain_false_of_last_dot (s : Str) (h : s.getLast? = some '.') :
    validate_domain s = false := by
  unfold validate_domain
  by_cases h1 : s = [] ∨ s = str "localhost" ∨ (str ".local").isSuffixOf s = true
  · rw [if_pos h1]
  · rw [if_neg h1]
    by_cases h2 : MAX_DOMAIN_LENGTH < s.length
    · rw [if_pos h2]
    · rw [if_neg h2]
      rcases getLast?_stripWildcard s h with he | hd
      · rw [he]; decide
      · exact domainReMatch_false_of_last_dot _ hd

/-- C10: process_content validates the raw extracted candidate before
normalizing it, so a candidate ending in a trailing dot is never
inserted: every string ending in a dot fails validate_domain, a line
whose extracted candidate ends in a dot leaves the accumulated set
unchanged, and in particular the line "example.com." contributes no
domain. -/
theorem C10_raw_validation_before_normalization :
    (∀ d : Str, d.getLast? = some '.' → validate_domain d = false) ∧
    (∀ (acc : List Str) (line : Str) (d : Str),
        extract_domain_from_line line = some d → d.getLast? = some '.' →
        processLine acc line = acc) ∧
    process_content [str "example.com."] = [] := by
  refine ⟨validate_domain_false_of_last_dot, ?_, by decide⟩
  intro acc line d hx hd
  unfold processLine
  rw [hx]
  show (if validate_domain d then insertSet (normalize_domain d) acc else acc) = acc
  rw [validate_domain_false_of_last_dot d hd]
  simp

/-- C10 witness: the parts with hypotheses applied at the concrete
line "example.com.", whose extracted candidate ends in a dot. -/
theorem C10_witness :
    ((str "example.com.").getLast? = some '.' ∧
      validate_domain (str "example.com.") = false) ∧
    (extract_domain_from_line (str "example.com.") = some (str "example.com.") ∧
      processLine [] (str "example.com.") = []) :=
  ⟨⟨by decide, C10_raw_validation_before_normalization.1 _ (by decide)⟩,
   ⟨by decide, C10_raw_validation_before_normalization.2.1 [] (str "example.com.")
      (str "example.com.") (by decide) (by decide)⟩⟩

theorem mem_foldl_processLine (lines : List Str) (acc : List Str) (d : Str)
    (h : d ∈ lines.foldl processLine acc) :
    d ∈ acc ∨ ∃ x, d = normalize_domain x := by
  induction lines generalizing acc with
  | nil => exact Or.inl h
  | cons line rest ih =>
    rw [List.foldl_cons] at h
    rcases ih (processLine acc line) h with h2 | h2
    · unfold processLine at h2
      cases hx : extract_domain_from_line line with
      | none =>
        rw [hx] at h2
        exact Or.inl h2
      | some x =>
        rw [hx] at h2
        change d ∈ (if validate_domain x then insertSet (normalize_domain x) acc else acc) at h2
        by_cases hv : validate_domain x
        · rw [if_pos hv] at h2
          unfold insertSet at h2
          by_cases hm : normalize_domain x ∈ acc
          · rw [if_pos hm] at h2
            exact Or.inl h2
          · rw [if_neg hm] at h2
            rcases List.mem_append.mp h2 with h3 | h3
            · exact Or.inl h3
            · exact Or.inr ⟨x, List.mem_singleton.mp h3⟩
        · rw [if_neg hv] at h2
          exact Or.inl h2
    · exact Or.inr h2

/-- C8 counterexample: the line "a.LOCAL" passes validate_domain in its
raw case-sensitive form, so process_content inserts its normalization
"a.local" — and that inserted value fails validate_domain (".local"
suffix), contradicting the claim that every inserted value satisfies
validate_domain. -/
theorem C8_counterexample :
    process_content [str "a.LOCAL"] = [str "a.local"] ∧
    validate_domain (str "a.local") = false := by decide

/-- C8 amended: every domain string process_content inserts is
lowercase (a fixed point of the case map), ends with no dot, and is a
fixed point of normalize_domain — but it need not satisfy
validate_domain, because validation ran on the raw pre-normalization
candidate. -/
theorem C8_inserted_domains_canonical (lines : List Str) (d : Str)
    (h : d ∈ process_content lines) :
    toLowerStr d = d ∧ d.getLast? ≠ some '.' ∧ normalize_domain d = d := by
  rcases mem_foldl_processLine lines [] d h with h2 | ⟨x, rfl⟩
  · simp at h2
  · exact ⟨toLowerStr_normalize x, normalize_no_trailing_dot x, normalize_domain_idem x⟩

/-- C8 witness: the amended invariant applied at the concrete inserted
value "a.local" produced from the line "a.LOCAL". -/
theorem C8_witness :
    (str "a.local") ∈ process_content [str "a.LOCAL"] ∧
    (toLowerStr (str "a.local") = str "a.local" ∧
      (str "a.local").getLast? ≠ some '.' ∧
      normalize_domain (str "a.local") = str "a.local") :=
  ⟨by decide, C8_inserted_domains_canonical [str "a.LOCAL"] (str "a.local") (by decide)⟩

theorem check_subdomain_iff (exact : List Str) (d : Str) :
    check_subdomain exact d = true ↔
      ∃ suf pre, d = pre ++ '.' :: suf ∧ suf ∈ exact := by
  induction d with
  | nil =>
    constructor
    · intro h
      exact Bool.noConfusion h
    · rintro ⟨suf, pre, heq, -⟩
      exact absurd heq (by simp)
  | cons c rest ih =>
    by_cases hc : c = '.'
    · subst hc
      show (decide (rest ∈ exact) || check_subdomain exact rest) = true ↔ _
      rw [Bool.or_eq_true, decide_eq_true_iff, ih]
      constructor
      · rintro (hm | ⟨suf, pre, rfl, hm⟩)
        · exact ⟨rest, [], rfl, hm⟩
        · exact ⟨suf, '.' :: pre, rfl, hm⟩
      · rintro ⟨suf, pre, heq, hm⟩
        cases pre with
        | nil =>
          simp only [List.nil_append, List.cons.injEq] at heq
          exact Or.inl (heq.2 ▸ hm)
        | cons p ps =>
          simp only [List.cons_append, List.cons.injEq] at heq
          exact Or.inr ⟨suf, ps, heq.2, hm⟩
    · show (if c = '.' then (decide (rest ∈ exact) || check_subdomain exact rest)
          else check_subdomain exact rest) = true ↔ _
      rw [if_neg hc, ih]
      constructor
      · rintro ⟨suf, pre, heq, hm⟩
        exact ⟨suf, c :: pre, by rw [heq, List.cons_append], hm⟩
      · rintro ⟨suf, pre, heq, hm⟩
        cases pre with
        | nil =>
          simp only [List.nil_append, List.cons.injEq] at heq
          exact absurd heq.1 hc
        | cons p ps =>
          simp only [List.cons_append, List.cons.injEq] at heq
          exact ⟨suf, ps, heq.2, hm⟩

theorem is_whitelisted_iff (m : WhitelistManager) (d : Str) :
    is_whitelisted m d = true ↔
      d ∈ m.exact_domains ∨
      (m.enable_subdomain = true ∧
        ∃ suf pre, d = pre ++ '.' :: suf ∧ suf ∈ m.exact_domains) ∨
      (∃ p, m.combined_pattern = some p ∧ p d = true) := by
  unfold is_whitelisted
  by_cases h1 : d ∈ m.exact_domains
  · rw [if_pos h1]
    exact ⟨fun _ => Or.inl h1, fun _ => rfl⟩
  · rw [if_neg h1]
    by_cases h2 : m.enable_subdomain && check_subdomain m.exact_domains d
    · rw [if_pos h2]
      have h3 : m.enable_subdomain = true ∧ check_subdomain m.exact_domains d = true := by
        simpa using h2
      exact ⟨fun _ => Or.inr (Or.inl ⟨h3.1, (check_subdomain_iff _ _).mp h3.2⟩),
        fun _ => rfl⟩
    · rw [if_neg h2]
      have h4 : ¬(m.enable_subdomain = true ∧ check_subdomain m.exact_domains d = true) := by
        intro hx
        exact h2 (by simpa using hx)
      cases hp : m.combined_pattern with
      | none =>
        constructor
        · intro hfalse
          exact Bool.noConfusion hfalse
        · rintro (hx | ⟨he, hs⟩ | ⟨q, hq, -⟩)
          · exact absurd hx h1
          · exact absurd ⟨he, (check_subdomain_iff _ _).mpr hs⟩ h4
          · exact Option.noConfusion hq
      | some p =>
        constructor
        · intro hpd
          exact Or.inr (Or.inr ⟨p, rfl, hpd⟩)
        · rintro (hx | ⟨he, hs⟩ | ⟨q, hq, hqd⟩)
          · exact absurd hx h1
          · exact absurd ⟨he, (check_subdomain_iff _ _).mpr hs⟩ h4
          · rw [Option.some.inj hq]
            exact hqd

/-- C1: the whitelist match holds exactly when the domain is in the
exact set, or (only with subdomain matching enabled) some proper
dot-separated parent suffix of it is in the exact set, or the single
combined pattern matches; consequently, with exact set containing just
example.com, filter_domains removes sub.example.com when subdomain
matching is enabled and keeps it when disabled (no pattern loaded). -/
theorem C1_whitelist_precedence :
    (∀ (m : WhitelistManager) (d : Str),
        is_whitelisted m d = true ↔
          d ∈ m.exact_domains ∨
          (m.enable_subdomain = true ∧
            ∃ suf pre, d = pre ++ '.' :: suf ∧ suf ∈ m.exact_domains) ∨
          (∃ p, m.combined_pattern = some p ∧ p d = true)) ∧
    filter_domains ⟨[str "example.com"], none, true⟩ [str "sub.example.com"] = ([], 1) ∧
    filter_domains ⟨[str "example.com"], none, false⟩ [str "sub.example.com"] =
      ([str "sub.example.com"], 0) :=
  ⟨is_whitelisted_iff, by decide, by decide⟩

/-- C2: extract_domain_from_line on the host-mapping, adblock,
inline-comment and comment-only sample lines, and the guarantee that a
line still containing a space after comment stripping and trimming
yields nothing unless it matched the IP or adblock shape. -/
theorem C2_extract_domain_cases :
    extract_domain_from_line (str "0.0.0.0 ads.example.com") = some (str "ads.example.com") ∧
    extract_domain_from_line (str "||ads.example.com^$third-party") =
      some (str "ads.example.com") ∧
    extract_domain_from_line (str "ads.example.com # note") = some (str "ads.example.com") ∧
    extract_domain_from_line (str "# comment") = none ∧
    (∀ line : Str,
        (trimStr (commentCut (trimStr line))).contains ' ' = true →
        ipDomainCapture (trimStr (commentCut (trimStr line))) = none →
        adblockCapture (trimStr (commentCut (trimStr line))) = none →
        extract_domain_from_line line = none) := by
  refine ⟨by decide, by decide, by decide, by decide, ?_⟩
  intro line hsp hip hab
  simp only [extract_domain_from_line]
  rw [hip, hab, hsp]
  simp

/-- C2 witness: the space-containing line "a b" matches neither shape
and yields nothing. -/
theorem C2_witness :
    ((trimStr (commentCut (trimStr (str "a b")))).contains ' ' = true ∧
      ipDomainCapture (trimStr (commentCut (trimStr (str "a b")))) = none ∧
      adblockCapture (trimStr (commentCut (trimStr (str "a b")))) = none) ∧
    extract_domain_from_line (str "a b") = none :=
  ⟨⟨by decide, by decide, by decide⟩,
   C2_extract_domain_cases.2.2.2.2 (str "a b") (by decide) (by decide) (by decide)⟩

theorem mem_insertSet (x d : Str) (acc : List Str) :
    x ∈ insertSet d acc ↔ x = d ∨ x ∈ acc := by
  unfold insertSet
  by_cases h : d ∈ acc
  · rw [if_pos h]
    constructor
    · exact Or.inr
    · rintro (rfl | hx)
      · exact h
      · exact hx
  · rw [if_neg h, List.mem_append, List.mem_singleton]
    tauto

theorem mem_extendSet (x : Str) (ds : List Str) : ∀ acc : List Str,
    x ∈ extendSet acc ds ↔ x ∈ acc ∨ x ∈ ds := by
  induction ds with
  | nil => intro acc; simp [extendSet]
  | cons d rest ih =>
    intro acc
    have he : extendSet acc (d :: rest) = extendSet (insertSet d acc) rest := rfl
    rw [he, ih (insertSet d acc), mem_insertSet, List.mem_cons]
    tauto

theorem mem_unionFold (x : Str) (cd : List (Str × List Str)) : ∀ acc : List Str,
    x ∈ cd.foldl (fun acc p => if p.1 = str "nsfw" then acc else extendSet acc p.2) acc ↔
      x ∈ acc ∨ ∃ p, p ∈ cd ∧ p.1 ≠ str "nsfw" ∧ x ∈ p.2 := by
  induction cd with
  | nil => intro acc; simp
  | cons q rest ih =>
    intro acc
    rw [List.foldl_cons, ih]
    by_cases hq : q.1 = str "nsfw"
    · rw [if_pos hq]
      constructor
      · rintro (hx | ⟨p, hp, hn, hxp⟩)
        · exact Or.inl hx
        · exact Or.inr ⟨p, List.mem_cons_of_mem q hp, hn, hxp⟩
      · rintro (hx | ⟨p, hp, hn, hxp⟩)
        · exact Or.inl hx
        · rcases List.mem_cons.mp hp with rfl | hp2
          · exact absurd hq hn
          · exact Or.inr ⟨p, hp2, hn, hxp⟩
    · rw [if_neg hq, mem_extendSet]
      constructor
      · rintro ((hx | hx2) | ⟨p, hp, hn, hxp⟩)
        · exact Or.inl hx
        · exact Or.inr ⟨q, List.mem_cons_self q rest, hq, hx2⟩
        · exact Or.inr ⟨p, List.mem_cons_of_mem q hp, hn, hxp⟩
      · rintro (hx | ⟨p, hp, hn, hxp⟩)
        · exact Or.inl (Or.inl hx)
        · rcases List.mem_cons.mp hp with rfl | hp2
          · exact Or.inl (Or.inr hxp)
          · exact Or.inr ⟨p, hp2, hn, hxp⟩

theorem mem_unionNonNsfw (x : Str) (cd : List (Str × List Str)) :
    x ∈ unionNonNsfw cd ↔ ∃ p, p ∈ cd ∧ p.1 ≠ str "nsfw" ∧ x ∈ p.2 := by
  unfold unionNonNsfw
  rw [mem_unionFold]
  simp

theorem check_subdomain_nil (d : Str) : check_subdomain [] d = false := by
  induction d with
  | nil => rfl
  | cons c rest ih =>
    show (if c = '.' then decide (rest ∈ ([] : List Str)) || check_subdomain [] rest
        else check_subdomain [] rest) = false
    by_cases hc : c = '.'
    · rw [if_pos hc, ih]
      simp
    · rw [if_neg hc, ih]

theorem is_whitelisted_no_rules (m : WhitelistManager) (hm : m.exact_domains = [])
    (hp : m.combined_pattern.isNone = true) (d : Str) : is_whitelisted m d = false := by
  unfold is_whitelisted
  rw [hm]
  rw [if_neg (List.not_mem_nil d)]
  rw [check_subdomain_nil, Bool.and_false, if_neg (Bool.false_ne_true)]
  rw [Option.isNone_iff_eq_none.mp hp]

theorem mem_filterLoop (m : WhitelistManager) (l : List Str) (d : Str) :
    d ∈ (filterLoop m l).1 ↔ d ∈ l ∧ is_whitelisted m d = false := by
  induction l with
  | nil => simp [filterLoop]
  | cons a rest ih =>
    show d ∈ (if is_whitelisted m a then ((filterLoop m rest).1, (filterLoop m rest).2 + 1)
        else (a :: (filterLoop m rest).1, (filterLoop m rest).2)).1 ↔ _
    by_cases ha : is_whitelisted m a
    · rw [if_pos ha]
      constructor
      · intro hd
        have h2 := ih.mp hd
        exact ⟨List.mem_cons_of_mem a h2.1, h2.2⟩
      · rintro ⟨hmem, hw⟩
        rcases List.mem_cons.mp hmem with rfl | h2
        · exact absurd ha (by simp [hw])
        · exact ih.mpr ⟨h2, hw⟩
    · rw [if_neg ha]
      constructor
      · intro hd
        rcases List.mem_cons.mp hd with rfl | h2
        · exact ⟨List.mem_cons_self _ rest, by simpa using ha⟩
        · have h3 := ih.mp h2
          exact ⟨List.mem_cons_of_mem a h3.1, h3.2⟩
      · rintro ⟨hmem, hw⟩
        rcases List.mem_cons.mp hmem with rfl | h2
        · exact List.mem_cons_self d _
        · exact List.mem_cons_of_mem a (ih.mpr ⟨h2, hw⟩)

theorem mem_filter_domains (m : WhitelistManager) (domains : List Str) (d : Str) :
    d ∈ (filter_domains m domains).1 ↔ d ∈ domains ∧ is_whitelisted m d = false := by
  unfold filter_domains
  by_cases h : m.exact_domains = [] ∧ m.combined_pattern.isNone = true
  · rw [if_pos h]
    exact ⟨fun hd => ⟨hd, is_whitelisted_no_rules m h.1 h.2 d⟩, And.left⟩
  · rw [if_neg h]
    exact mem_filterLoop m domains d

theorem mem_sortDomains (d : Str) (l : List Str) : d ∈ sortDomains l ↔ d ∈ l :=
  (List.perm_insertionSort _ l).mem_iff

theorem sorted_sortDomains (l : List Str) : List.Sorted (· ≤ ·) (sortDomains l) :=
  List.sorted_insertionSort _ l

theorem write_blocklist_lines_body (label now : Str) (ds : List Str) :
    (write_blocklist_lines label now ds).drop 4 =
      (sortDomains ds).map (fun d => str "0.0.0.0 " ++ d) := rfl

theorem mem_prefixed (d : Str) (l : List Str) :
    (str "0.0.0.0 " ++ d) ∈ l.map (fun x => str "0.0.0.0 " ++ x) ↔ d ∈ l := by
  rw [List.mem_map]
  constructor
  · rintro ⟨x, hx, he⟩
    rw [← List.append_cancel_left he]
    exact hx
  · intro hd
    exact ⟨d, hd, rfl⟩

theorem masterFile_eq (m : WhitelistManager) (now : Str) (cd : List (Str × List Str)) :
    (create_production_lists m now cd).masterFile =
      write_blocklist_lines (str "Master") now (filter_domains m (unionNonNsfw cd)).1 := rfl

theorem categoryFiles_eq (m : WhitelistManager) (now : Str) (cd : List (Str × List Str)) :
    (create_production_lists m now cd).categoryFiles =
      cd.filterMap (fun p =>
        if p.2 = [] then none
        else some (p.1, write_blocklist_lines (capitalize p.1) now (filter_domains m p.2).1)) :=
  rfl

/-- C3: the master production file holds, as sorted 0.0.0.0 records
after the four header lines, exactly the whitelist-filtered union of
all categories except "nsfw"; every non-empty category gets its own
file holding its own whitelist-filtered set; every file body is the
sorted record list; and the concrete example from the specification
comes out as the sorted filtered sets. -/
theorem C3_create_production_lists :
    (∀ (m : WhitelistManager) (now : Str) (cd : List (Str × List Str)) (d : Str),
        (str "0.0.0.0 " ++ d) ∈ (create_production_lists m now cd).masterFile.drop 4 ↔
          ((∃ p, p ∈ cd ∧ p.1 ≠ str "nsfw" ∧ d ∈ p.2) ∧ is_whitelisted m d = false)) ∧
    (∀ (m : WhitelistManager) (now : Str) (cd : List (Str × List Str)) (p : Str × List Str),
        p ∈ cd → p.2 ≠ [] →
        (p.1, write_blocklist_lines (capitalize p.1) now (filter_domains m p.2).1) ∈
          (create_production_lists m now cd).categoryFiles ∧
        (∀ d : Str,
          (str "0.0.0.0 " ++ d) ∈
              (write_blocklist_lines (capitalize p.1) now (filter_domains m p.2).1).drop 4 ↔
            d ∈ p.2 ∧ is_whitelisted m d = false)) ∧
    (∀ (label now : Str) (ds : List Str),
        (write_blocklist_lines label now ds).drop 4 =
          (sortDomains ds).map (fun d => str "0.0.0.0 " ++ d) ∧
        List.Sorted (· ≤ ·) (sortDomains ds)) ∧
    ((create_production_lists ⟨[str "b.com"], none, true⟩ (str "T")
        [(str "ads", [str "a.com", str "b.com"]), (str "trackers", [str "c.com"])]).masterFile =
      [str "# Pi-hole Master Blocklist", str "# Last updated: T", str "# Total domains: 2", [],
       str "0.0.0.0 a.com", str "0.0.0.0 c.com"] ∧
     (create_production_lists ⟨[str "b.com"], none, true⟩ (str "T")
        [(str "ads", [str "a.com", str "b.com"]), (str "trackers", [str "c.com"])]).categoryFiles =
      [(str "ads", [str "# Pi-hole Ads Blocklist", str "# Last updated: T",
          str "# Total domains: 1", [], str "0.0.0.0 a.com"]),
       (str "trackers", [str "# Pi-hole Trackers Blocklist", str "# Last updated: T",
          str "# Total domains: 1", [], str "0.0.0.0 c.com"])]) := by
  refine ⟨?_, ?_, ?_, by decide, by decide⟩
  · intro m now cd d
    rw [masterFile_eq, write_blocklist_lines_body, mem_prefixed, mem_sortDomains,
      mem_filter_domains, mem_unionNonNsfw]
  · intro m now cd p hp hne
    constructor
    · rw [categoryFiles_eq]
      rw [List.mem_filterMap]
      exact ⟨p, hp, by rw [if_neg hne]⟩
    · intro d
      rw [write_blocklist_lines_body, mem_prefixed, mem_sortDomains, mem_filter_domains]
  · intro label now ds
    exact ⟨write_blocklist_lines_body label now ds, sorted_sortDomains ds⟩

/-- C3 witness: the category-file clause applied at the concrete ads
category of the specification example. -/
theorem C3_witness :
    ((str "ads", [str "a.com", str "b.com"]) ∈
        [(str "ads", [str "a.com", str "b.com"]), (str "trackers", [str "c.com"])] ∧
      ([str "a.com", str "b.com"] : List Str) ≠ []) ∧
    (str "ads",
      write_blocklist_lines (capitalize (str "ads")) (str "T")
        (filter_domains ⟨[str "b.com"], none, true⟩ [str "a.com", str "b.com"]).1) ∈
      (create_production_lists ⟨[str "b.com"], none, true⟩ (str "T")
        [(str "ads", [str "a.com", str "b.com"]), (str "trackers", [str "c.com"])]).categoryFiles :=
  ⟨⟨by decide, by decide⟩,
   (C3_create_production_lists.2.1 ⟨[str "b.com"], none, true⟩ (str "T")
      [(str "ads", [str "a.com", str "b.com"]), (str "trackers", [str "c.com"])]
      (str "ads", [str "a.com", str "b.com"]) (by decide) (by decide)).1⟩


theorem downloadGo_succ_netErr (e lm : Option Str) (r : Nat → Response) (a n : Nat)
    (hr : r a = Response.netErr) :
    downloadGo e lm r a (n + 1) =
      if a < MAX_RETRIES then downloadGo e lm r (a + 1) n else Outcome.failed := by
  show (match r a with
    | Response.netErr =>
      if a < MAX_RETRIES then downloadGo e lm r (a + 1) n else Outcome.failed
    | Response.status code re rlm body =>
      if code = 304 then Outcome.notModified e lm
      else if RETRY_STATUS_CODES.contains code = true ∧ a < MAX_RETRIES then
        downloadGo e lm r (a + 1) n
      else if isSuccessStatus code = false then Outcome.failed
      else Outcome.success body re rlm) = _
  rw [hr]

theorem downloadGo_succ_status (e lm : Option Str) (r : Nat → Response) (a n code : Nat)
    (re rlm : Option Str) (body : Str) (hr : r a = Response.status code re rlm body) :
    downloadGo e lm r a (n + 1) =
      (if code = 304 then Outcome.notModified e lm
      else if RETRY_STATUS_CODES.contains code = true ∧ a < MAX_RETRIES then
        downloadGo e lm r (a + 1) n
      else if isSuccessStatus code = false then Outcome.failed
      else Outcome.success body re rlm) := by
  show (match r a with
    | Response.netErr =>
      if a < MAX_RETRIES then downloadGo e lm r (a + 1) n else Outcome.failed
    | Response.status code re rlm body =>
      if code = 304 then Outcome.notModified e lm
      else if RETRY_STATUS_CODES.contains code = true ∧ a < MAX_RETRIES then
        downloadGo e lm r (a + 1) n
      else if isSuccessStatus code = false then Outcome.failed
      else Outcome.success body re rlm) = _
  rw [hr]

theorem downloadGo_congr (e lm : Option Str) (r r' : Nat → Response) :
    ∀ (fuel a : Nat), (∀ i, a ≤ i → i < a + fuel → r i = r' i) →
    downloadGo e lm r a fuel = downloadGo e lm r' a fuel := by
  intro fuel
  induction fuel with
  | zero => intro a _; rfl
  | succ n ih =>
    intro a h
    have ha : r' a = r a := (h a (Nat.le_refl a) (by omega)).symm
    have hrec : ∀ i, a + 1 ≤ i → i < (a + 1) + n → r i = r' i := fun i h1 h2 =>
      h i (by omega) (by omega)
    cases hr : r a with
    | netErr =>
      rw [downloadGo_succ_netErr e lm r a n hr,
        downloadGo_succ_netErr e lm r' a n (ha.trans hr)]
      by_cases hlt : a < MAX_RETRIES
      · rw [if_pos hlt, if_pos hlt]
        exact ih (a + 1) hrec
      · rw [if_neg hlt, if_neg hlt]
    | status code re rlm body =>
      rw [downloadGo_succ_status e lm r a n code re rlm body hr,
        downloadGo_succ_status e lm r' a n code re rlm body (ha.trans hr)]
      by_cases h304 : code = 304
      · rw [if_pos h304, if_pos h304]
      · rw [if_neg h304, if_neg h304]
        by_cases hretry : RETRY_STATUS_CODES.contains code = true ∧ a < MAX_RETRIES
        · rw [if_pos hretry, if_pos hretry]
          exact ih (a + 1) hrec
        · rw [if_neg hretry, if_neg hretry]

theorem downloadGo_retry_step (e lm : Option Str) (r : Nat → Response) (a n : Nat)
    (ht : isTransient (r a) = true) (hlt : a < MAX_RETRIES) :
    downloadGo e lm r a (n + 1) = downloadGo e lm r (a + 1) n := by
  cases hr : r a with
  | netErr =>
    rw [downloadGo_succ_netErr e lm r a n hr, if_pos hlt]
  | status code re rlm body =>
    rw [hr] at ht
    have ht2 : RETRY_STATUS_CODES.contains code = true := ht
    have h304 : ¬ code = 304 := by
      intro hc
      rw [hc] at ht2
      exact absurd ht2 (by decide)
    rw [downloadGo_succ_status e lm r a n code re rlm body hr, if_neg h304,
      if_pos ⟨ht2, hlt⟩]

theorem retry_code_cases (code : Nat) (h : RETRY_STATUS_CODES.contains code = true) :
    code = 429 ∨ code = 500 ∨ code = 502 ∨ code = 503 ∨ code = 504 := by
  simpa [RETRY_STATUS_CODES] using h

theorem downloadGo_success_end (e lm : Option Str) (r : Nat → Response) (a n code : Nat)
    (re rlm : Option Str) (body : Str)
    (hr : r a = Response.status code re rlm body) (h2 : 200 ≤ code) (h3 : code < 300) :
    downloadGo e lm r a (n + 1) = Outcome.success body re rlm := by
  rw [downloadGo_succ_status e lm r a n code re rlm body hr]
  have h304 : ¬ code = 304 := by omega
  rw [if_neg h304]
  have hretry : ¬(RETRY_STATUS_CODES.contains code = true ∧ a < MAX_RETRIES) := by
    rintro ⟨hc, -⟩
    have h4 := retry_code_cases code hc
    omega
  rw [if_neg hretry]
  have hs : isSuccessStatus code = true := by
    unfold isSuccessStatus
    simp only [Bool.and_eq_true, decide_eq_true_eq]
    exact ⟨h2, h3⟩
  have hsf : ¬(isSuccessStatus code = false) := by
    rw [hs]
    exact fun hq => Bool.noConfusion hq
  rw [if_neg hsf]

theorem downloadGo_exhausted (e lm : Option Str) (r : Nat → Response) (n : Nat)
    (ht : isTransient (r MAX_RETRIES) = true) :
    downloadGo e lm r MAX_RETRIES (n + 1) = Outcome.failed := by
  cases hr : r MAX_RETRIES with
  | netErr =>
    rw [downloadGo_succ_netErr e lm r MAX_RETRIES n hr, if_neg (lt_irrefl MAX_RETRIES)]
  | status code re rlm body =>
    rw [hr] at ht
    have ht2 : RETRY_STATUS_CODES.contains code = true := ht
    have h4 := retry_code_cases code ht2
    have h304 : ¬ code = 304 := by omega
    rw [downloadGo_succ_status e lm r MAX_RETRIES n code re rlm body hr, if_neg h304]
    rw [if_neg (by rintro ⟨-, hlt⟩; exact absurd hlt (lt_irrefl _))]
    have hsf : isSuccessStatus code = false := by
      have hlt300 : ¬ code < 300 := by omega
      unfold isSuccessStatus
      simp [hlt300]
    rw [if_pos hsf]

/-- C4: the download loop retries transient answers (retryable statuses
429, 500, 502, 503, 504 or network errors) only while fewer than 3
retries have been consumed, so the outcome depends only on the first 4
attempts; 3 transient failures followed by a success on the 4th attempt
yield Success, 4 transient failures yield Failed, and a non-retryable,
non-success status other than 304 fails immediately with no retry. -/
theorem C4_retry_budget :
    (∀ (e lm : Option Str) (r r' : Nat → Response),
        (∀ i, i < MAX_RETRIES + 1 → r i = r' i) → download e lm r = download e lm r') ∧
    (∀ (e lm : Option Str) (r : Nat → Response) (code : Nat) (re rlm : Option Str) (body : Str),
        (∀ i, i < 3 → isTransient (r i) = true) →
        r 3 = Response.status code re rlm body → 200 ≤ code → code < 300 →
        download e lm r = Outcome.success body re rlm) ∧
    (∀ (e lm : Option Str) (r : Nat → Response),
        (∀ i, i < 4 → isTransient (r i) = true) → download e lm r = Outcome.failed) ∧
    (∀ (e lm : Option Str) (r : Nat → Response) (code : Nat) (re rlm : Option Str) (body : Str),
        r 0 = Response.status code re rlm body →
        code ≠ 304 → RETRY_STATUS_CODES.contains code = false → isSuccessStatus code = false →
        download e lm r = Outcome.failed) := by
  refine ⟨?_, ?_, ?_, ?_⟩
  · intro e lm r r' h
    exact downloadGo_congr e lm r r' (MAX_RETRIES + 1) 0 (fun i _ h2 => h i (by omega))
  · intro e lm r code re rlm body ht hr h2 h3
    have s1 : download e lm r = downloadGo e lm r 1 3 :=
      downloadGo_retry_step e lm r 0 3 (ht 0 (by omega)) (by decide)
    have s2 : downloadGo e lm r 1 3 = downloadGo e lm r 2 2 :=
      downloadGo_retry_step e lm r 1 2 (ht 1 (by omega)) (by decide)
    have s3 : downloadGo e lm r 2 2 = downloadGo e lm r 3 1 :=
      downloadGo_retry_step e lm r 2 1 (ht 2 (by omega)) (by decide)
    have s4 : downloadGo e lm r 3 1 = Outcome.success body re rlm :=
      downloadGo_success_end e lm r 3 0 code re rlm body hr h2 h3
    rw [s1, s2, s3, s4]
  · intro e lm r ht
    have s1 : download e lm r = downloadGo e lm r 1 3 :=
      downloadGo_retry_step e lm r 0 3 (ht 0 (by omega)) (by decide)
    have s2 : downloadGo e lm r 1 3 = downloadGo e lm r 2 2 :=
      downloadGo_retry_step e lm r 1 2 (ht 1 (by omega)) (by decide)
    have s3 : downloadGo e lm r 2 2 = downloadGo e lm r 3 1 :=
      downloadGo_retry_step e lm r 2 1 (ht 2 (by omega)) (by decide)
    have s4 : downloadGo e lm r 3 1 = Outcome.failed :=
      downloadGo_exhausted e lm r 0 (ht 3 (by omega))
    rw [s1, s2, s3, s4]
  · intro e lm r code re rlm body hr h304 hretry hsf
    unfold download
    rw [downloadGo_succ_status e lm r 0 MAX_RETRIES code re rlm body hr, if_neg h304]
    rw [if_neg (by rintro ⟨hc, -⟩; rw [hretry] at hc; exact Bool.noConfusion hc)]
    rw [if_pos hsf]

/-- C4 witness: three network errors then a 200 response give Success
on the 4th attempt. -/
theorem C4_witness :
    ((∀ i, i < 3 →
        isTransient ((fun j => if j < 3 then Response.netErr
          else Response.status 200 none none (str "B")) i) = true) ∧
      (fun j => if j < 3 then Response.netErr else Response.status 200 none none (str "B")) 3 =
        Response.status 200 none none (str "B") ∧
      (200 : Nat) ≤ 200 ∧ (200 : Nat) < 300) ∧
    download none none
        (fun j => if j < 3 then Response.netErr else Response.status 200 none none (str "B")) =
      Outcome.success (str "B") none none :=
  ⟨⟨fun i hi => by simp only [if_pos hi]; rfl, by decide, by decide, by decide⟩,
   C4_retry_budget.2.1 none none _ 200 none none (str "B")
     (fun i hi => by simp only [if_pos hi]; rfl) (by decide) (by decide) (by decide)⟩

theorem downloadGo_notModified_inv (e lm : Option Str) (r : Nat → Response) :
    ∀ (fuel a : Nat) (x y : Option Str),
      downloadGo e lm r a fuel = Outcome.notModified x y → x = e ∧ y = lm := by
  intro fuel
  induction fuel with
  | zero =>
    intro a x y h
    exact Outcome.noConfusion h
  | succ n ih =>
    intro a x y h
    cases hr : r a with
    | netErr =>
      rw [downloadGo_succ_netErr e lm r a n hr] at h
      by_cases hlt : a < MAX_RETRIES
      · rw [if_pos hlt] at h
        exact ih (a + 1) x y h
      · rw [if_neg hlt] at h
        exact Outcome.noConfusion h
    | status code re rlm body =>
      rw [downloadGo_succ_status e lm r a n code re rlm body hr] at h
      by_cases h304 : code = 304
      · rw [if_pos h304] at h
        have h2 := Outcome.notModified.inj h
        exact ⟨h2.1.symm, h2.2.symm⟩
      · rw [if_neg h304] at h
        by_cases hretry : RETRY_STATUS_CODES.contains code = true ∧ a < MAX_RETRIES
        · rw [if_pos hretry] at h
          exact ih (a + 1) x y h
        · rw [if_neg hretry] at h
          by_cases hsf : isSuccessStatus code = false
          · rw [if_pos hsf] at h
            exact Outcome.noConfusion h
          · rw [if_neg hsf] at h
            exact Outcome.noConfusion h

theorem downloadGo_success_inv (e lm : Option Str) (r : Nat → Response) :
    ∀ (fuel a : Nat) (body : Str) (x y : Option Str),
      downloadGo e lm r a fuel = Outcome.success body x y →
      ∃ i code, r i = Response.status code x y body ∧ 200 ≤ code ∧ code < 300 := by
  intro fuel
  induction fuel with
  | zero =>
    intro a body x y h
    exact Outcome.noConfusion h
  | succ n ih =>
    intro a body x y h
    cases hr : r a with
    | netErr =>
      rw [downloadGo_succ_netErr e lm r a n hr] at h
      by_cases hlt : a < MAX_RETRIES
      · rw [if_pos hlt] at h
        exact ih (a + 1) body x y h
      · rw [if_neg hlt] at h
        exact Outcome.noConfusion h
    | status code re rlm body0 =>
      rw [downloadGo_succ_status e lm r a n code re rlm body0 hr] at h
      by_cases h304 : code = 304
      · rw [if_pos h304] at h
        exact Outcome.noConfusion h
      · rw [if_neg h304] at h
        by_cases hretry : RETRY_STATUS_CODES.contains code = true ∧ a < MAX_RETRIES
        · rw [if_pos hretry] at h
          exact ih (a + 1) body x y h
        · rw [if_neg hretry] at h
          by_cases hsf : isSuccessStatus code = false
          · rw [if_pos hsf] at h
            exact Outcome.noConfusion h
          · rw [if_neg hsf] at h
            have h2 := Outcome.success.inj h
            have hst : isSuccessStatus code = true := by
              cases hb : isSuccessStatus code with
              | false => exact absurd hb hsf
              | true => rfl
            have h5 : 200 ≤ code ∧ code < 300 := by
              unfold isSuccessStatus at hst
              simpa using hst
            refine ⟨a, code, ?_, h5.1, h5.2⟩
            rw [hr, h2.1, h2.2.1, h2.2.2]

/-- C5: a NotModified outcome always carries exactly the validator the
caller supplied, and a Success outcome carries the body and validator
of a successful response the server actually gave — never the caller's
prior validator. -/
theorem C5_validator_semantics :
    (∀ (e lm : Option Str) (r : Nat → Response) (x y : Option Str),
        download e lm r = Outcome.notModified x y → x = e ∧ y = lm) ∧
    (∀ (e lm : Option Str) (r : Nat → Response) (body : Str) (x y : Option Str),
        download e lm r = Outcome.success body x y →
        ∃ i code, r i = Response.status code x y body ∧ 200 ≤ code ∧ code < 300) :=
  ⟨fun e lm r x y h => downloadGo_notModified_inv e lm r _ 0 x y h,
   fun e lm r body x y h => downloadGo_success_inv e lm r _ 0 body x y h⟩

/-- C5 witness: a 304 answer with different response headers still
yields NotModified carrying the caller's validator unchanged. -/
theorem C5_witness :
    (download (some (str "e")) none
        (fun _ => Response.status 304 (some (str "X")) none []) =
      Outcome.notModified (some (str "e")) none) ∧
    (some (str "e") = some (str "e") ∧ (none : Option Str) = none) :=
  ⟨by decide,
   C5_validator_semantics.1 (some (str "e")) none
     (fun _ => Response.status 304 (some (str "X")) none []) (some (str "e")) none (by decide)⟩
